import Mathlib

/-!
Verification of the log-extraction core of `src/extract_logs.py`
(class `LogExtractor`) against its natural-language specification.

Shallow embedding conventions:
* A memory-mapped file region (`mmap.mmap`) is an immutable byte sequence,
  modelled as `List Nat` (each element one byte).
* A Python `str` is represented by its UTF-8 byte sequence (UTF-8 encoding is
  injective, so string equality coincides with byte-list equality, and
  `len(s.encode('utf-8'))` is the length of the representing list).  Decoding
  `bytes.decode('utf-8')` either succeeds — returning the same bytes, now
  viewed as a string — or raises `UnicodeDecodeError`; success is modelled by
  the UTF-8 validity check `validUtf8`.  The target date is a 10-character
  ASCII string (validated upstream by `datetime.strptime(date, '%Y-%m-%d')`),
  for which `line.startswith(target_date)` coincides with a byte-level
  `List.isPrefixOf` test and `line[:10] == target_date` with a byte-level
  `List.take 10` test.
* Python exceptions are modelled with `Except`.
-/

/-- A Python exception, as far as this module can raise one. -/
inductive PyErr where
  /-- `TypeError`, e.g. "cannot unpack non-iterable int object". -/
  | typeError : PyErr
  /-- `UnicodeDecodeError` from `bytes.decode('utf-8')`. -/
  | unicodeDecodeError : PyErr
deriving DecidableEq

/-- The memory-mapped region: one `Nat` per byte of the file. -/
abbrev Region := List Nat

/-- The line-terminator byte `b'\n'` (0x0A). -/
def NL : Nat := 10

/-- Backward scan of `_get_line_at_position` (src lines 69–72):
`while position > 0 and mm[position - 1:position] != b'\n': position -= 1`.
Note that an out-of-range Python slice is `b''`, which compares unequal to
`b'\n'`; `List.getD` with default `0` (≠ 10) models this faithfully. -/
def lineStartAt (mm : Region) : Nat → Nat
  | 0 => 0
  | p + 1 => if mm.getD p 0 = NL then p + 1 else lineStartAt mm p

/-- Forward scan of `_get_line_at_position` (src lines 75–76), expressed on the
suffix of the region that starts at the scan position:
`while position < len(mm) and mm[position:position + 1] != b'\n': position += 1`.
The first argument is `mm.drop p` and the second the current offset `p`; the
scan stops at end-of-region (empty suffix) or at the first `\n` byte. -/
def lineEndScan : List Nat → Nat → Nat
  | [], p => p
  | b :: rest, p => if b = NL then p else lineEndScan rest (p + 1)

/-- Offset of the end of the line when scanning forward from `p`
(src lines 75–76). -/
def lineEndAt (mm : Region) (p : Nat) : Nat :=
  lineEndScan (mm.drop p) p

/-- The Python slice `mm[s:e]` (clamping, empty when `e ≤ s`). -/
def sliceBytes (mm : Region) (s e : Nat) : List Nat :=
  (mm.drop s).take (e - s)

/-- A UTF-8 continuation byte (`0x80–0xBF`). -/
def isCont (b : Nat) : Bool := 0x80 ≤ b && b ≤ 0xBF

/-- Strict UTF-8 validity, as checked by Python's `bytes.decode('utf-8')`:
the RFC 3629 byte patterns, rejecting overlong forms, surrogates and
code points above `U+10FFFF`. -/
def validUtf8 : List Nat → Bool
  | [] => true
  | b :: l =>
    if b ≤ 0x7F then validUtf8 l
    else if 0xC2 ≤ b && b ≤ 0xDF then
      match l with
      | b1 :: l => isCont b1 && validUtf8 l
      | _ => false
    else if b = 0xE0 then
      match l with
      | b1 :: b2 :: l => (0xA0 ≤ b1 && b1 ≤ 0xBF) && isCont b2 && validUtf8 l
      | _ => false
    else if (0xE1 ≤ b && b ≤ 0xEC) || b = 0xEE || b = 0xEF then
      match l with
      | b1 :: b2 :: l => isCont b1 && isCont b2 && validUtf8 l
      | _ => false
    else if b = 0xED then
      match l with
      | b1 :: b2 :: l => (0x80 ≤ b1 && b1 ≤ 0x9F) && isCont b2 && validUtf8 l
      | _ => false
    else if b = 0xF0 then
      match l with
      | b1 :: b2 :: b3 :: l =>
        (0x90 ≤ b1 && b1 ≤ 0xBF) && isCont b2 && isCont b3 && validUtf8 l
      | _ => false
    else if 0xF1 ≤ b && b ≤ 0xF3 then
      match l with
      | b1 :: b2 :: b3 :: l => isCont b1 && isCont b2 && isCont b3 && validUtf8 l
      | _ => false
    else if b = 0xF4 then
      match l with
      | b1 :: b2 :: b3 :: l =>
        (0x80 ≤ b1 && b1 ≤ 0x8F) && isCont b2 && isCont b3 && validUtf8 l
      | _ => false
    else false

/-- `_get_line_at_position(mm, position)` (src lines 66–78): scan backward to
the line start, forward from there to the line end, and decode
`mm[line_start:position]`; decoding raises `UnicodeDecodeError` on invalid
UTF-8, modelled as `Except.error`. -/
def get_line_at_position (mm : Region) (position : Nat) : Except PyErr (List Nat) :=
  let line_start := lineStartAt mm position
  let line_end := lineEndAt mm line_start
  let content := sliceBytes mm line_start line_end
  if validUtf8 content then Except.ok content else Except.error PyErr.unicodeDecodeError

/-- `_binary_search_date(mm, target_date)` (src lines 80–103).  Its first
statement, line 82, is `left, right = len(mm)`: tuple-unpacking an `int`,
which raises `TypeError: cannot unpack non-iterable int object` on every
call.  The search loop of lines 85–101 is therefore unreachable and the
function never returns normally; the faithful embedding is the raised
exception. -/
def binary_search_date (_mm : Region) (_target_date : List Nat) : Except PyErr Int :=
  Except.error PyErr.typeError

/-- One bounded unfolding of the forward-extraction loop of `extract_logs`
(src lines 129–137):

```
while position < len(mm):
    line = self._get_line_at_position(mm, position)
    if not line.startswith(target_date):
        break
    out_f.write(line + '\n')
    position += len(line.encode('utf-8')) + 1
```

The result is the list of lines written to the output file together with the
exception, if any, that aborted the loop (a `UnicodeDecodeError` escaping
`_get_line_at_position`).  Each iteration strictly increases `position`, so
`mm.length + 1` units of fuel always suffice; the fuel only makes the
recursion structural. -/
def extractLoop (mm target_date : List Nat) : Nat → Nat → List (List Nat) × Option PyErr
  | 0, _ => ([], none)
  | fuel + 1, position =>
    if position < mm.length then
      match get_line_at_position mm position with
      | Except.error e => ([], some e)
      | Except.ok line =>
        if target_date.isPrefixOf line then
          let r := extractLoop mm target_date fuel (position + line.length + 1)
          (line :: r.1, r.2)
        else ([], none)
    else ([], none)

/-- The forward-extraction loop of `extract_logs` (src lines 129–137), run
from offset `position` with adequate fuel. -/
def extract_forward (mm target_date : List Nat) (position : Nat) : List (List Nat) × Option PyErr :=
  extractLoop mm target_date (mm.length + 1) position

/-- Outcome of one run of `extract_logs` after the file has been mapped
(src lines 115–141), keeping the contents of the output file. -/
inductive RunResult where
  /-- An exception was raised before the output file was opened
  (caught at line 143 and printed as an error); no output file exists. -/
  | fatalError (e : PyErr) : RunResult
  /-- `_binary_search_date` returned `-1`: "No logs found" (lines 122–124);
  no output file is created. -/
  | noLogs : RunResult
  /-- The extraction loop raised after writing `out` (partial output remains
  on disk; the exception is caught at line 143 and printed). -/
  | partialThenError (out : List (List Nat)) (e : PyErr) : RunResult
  /-- The loop completed; the output file holds `out`. -/
  | extracted (out : List (List Nat)) : RunResult
deriving DecidableEq

/-- The search-and-extract core of `extract_logs(target_date)`
(src lines 115–141): binary-search for the date, return early on `-1`,
otherwise run the forward-extraction loop, writing matched lines. -/
def extract_logs_core (mm : Region) (target_date : List Nat) : RunResult :=
  match binary_search_date mm target_date with
  | Except.error e => RunResult.fatalError e
  | Except.ok position =>
    if position = -1 then RunResult.noLogs
    else
      match extract_forward mm target_date position.toNat with
      | (out, some e) => RunResult.partialThenError out e
      | (out, none) => RunResult.extracted out

/-- The bytes of the output file produced by a run: each written line is
followed by `'\n'` (`out_f.write(line + '\n')`, src line 134); `none` when no
output file was created. -/
def outputBytes : RunResult → Option (List Nat)
  | RunResult.fatalError _ => none
  | RunResult.noLogs => none
  | RunResult.partialThenError out _ => some (out.foldr (fun l acc => l ++ NL :: acc) [])
  | RunResult.extracted out => some (out.foldr (fun l acc => l ++ NL :: acc) [])

/-- Decomposition of the region into the contents of its successive lines,
starting at a line-start offset `pos`; the specification-side description of
what the forward pass walks over.  Mirrors the advance step of the loop
(`position += len(line) + 1`) so that it lines up with `extractLoop`. -/
def lineContentsLoop (mm : Region) : Nat → Nat → List (List Nat)
  | 0, _ => []
  | fuel + 1, pos =>
    if pos < mm.length then
      sliceBytes mm pos (lineEndAt mm pos) ::
        lineContentsLoop mm fuel (pos + (sliceBytes mm pos (lineEndAt mm pos)).length + 1)
    else []

/-- The contents of the successive lines of `mm` from offset `pos` on. -/
def lineContentsFrom (mm : Region) (pos : Nat) : List (List Nat) :=
  lineContentsLoop mm (mm.length + 1) pos

/-- The lines the forward-extraction loop looks at when walking `ls`: the
matching run it yields, plus the first non-matching line (if any), at which
it stops. -/
def scannedOf (ls : List (List Nat)) (target_date : List Nat) : List (List Nat) :=
  ls.takeWhile (fun c => target_date.isPrefixOf c) ++
    (ls.dropWhile (fun c => target_date.isPrefixOf c)).take 1

/-- The bytes of `"2024-01-01"`. -/
def date0101 : List Nat := [50, 48, 50, 52, 45, 48, 49, 45, 48, 49]

/-- The bytes of `"2024-01-02"`. -/
def date0102 : List Nat := [50, 48, 50, 52, 45, 48, 49, 45, 48, 50]

/-- The bytes of `"2024-01-03"`. -/
def date0103 : List Nat := [50, 48, 50, 52, 45, 48, 49, 45, 48, 51]

/-- The bytes of `"2024-01-05"`. -/
def date0105 : List Nat := [50, 48, 50, 52, 45, 48, 49, 45, 48, 53]

/-- The bytes of `"2024-03-05"`. -/
def date0305 : List Nat := [50, 48, 50, 52, 45, 48, 51, 45, 48, 53]

/-- The bytes of `"2024-01-02 a\n2024-01-02 b\n"`: a sorted region whose
two lines both carry the date key `2024-01-02`. -/
def r1 : Region := date0102 ++ [32, 97, 10] ++ date0102 ++ [32, 98, 10]

/-- The bytes of `"2024-01-01 a\n"`: a sorted region that contains no line
dated `2024-03-05`. -/
def r2 : Region := date0101 ++ [32, 97, 10]

/-- The bytes of `"2024-01-01 a\n<0xFF>\n2024-01-05 b\n"`: a region whose
middle line (offset 13) is a single undecodable byte. -/
def r3 : Region := date0101 ++ [32, 97, 10, 255, 10] ++ date0105 ++ [32, 98, 10]

/-- The bytes of `"2024-01-02 a\n<0xFF>"`: a matching first line followed by
an undecodable final line. -/
def r4 : Region := date0102 ++ [32, 97, 10, 255]

/-- The bytes of
`"2024-01-01 a\n2024-01-02 b\n2024-01-02 c\n2024-01-03 d\n"`: a sorted,
fully decodable region whose `2024-01-02` run starts at offset 13. -/
def r5 : Region :=
  date0101 ++ [32, 97, 10] ++ date0102 ++ [32, 98, 10] ++
    date0102 ++ [32, 99, 10] ++ date0103 ++ [32, 100, 10]

/-- The bytes of `"2024-01-02 a\n<0xFF>\n2024-01-02 c\n"`: a matching line,
then an undecodable line at offset 13, then another matching line. -/
def r6 : Region := date0102 ++ [32, 97, 10, 255, 10] ++ date0102 ++ [32, 99, 10]

/-- The bytes of `"ab\ncd\nef"`: three short lines, the last unterminated. -/
def r7 : Region := [97, 98, 10, 99, 100, 10, 101, 102]

/-! ### Helper lemmas about the two scans of `_get_line_at_position` -/

/-- Reading one byte of the region: for `p < mm.length`, the suffix at `p`
starts with the byte at `p`. -/
theorem drop_head (mm : Region) (p : Nat) (h : p < mm.length) :
    mm.drop p = mm.getD p 0 :: mm.drop (p + 1) := by
  induction mm generalizing p with
  | nil => simp at h
  | cons b t ih =>
    cases p with
    | zero => simp
    | succ p =>
      simp only [List.drop_succ_cons, List.getD_cons_succ]
      exact ih p (by simpa using h)

/-- The backward scan never moves forward. -/
theorem lineStartAt_le (mm : Region) : ∀ p, lineStartAt mm p ≤ p := by
  intro p
  induction p with
  | zero => simp [lineStartAt]
  | succ p ih =>
    simp only [lineStartAt]
    split <;> omega

/-- The backward scan stops at offset 0 or just after a terminator byte. -/
theorem lineStartAt_start (mm : Region) :
    ∀ p, lineStartAt mm p = 0 ∨ mm.getD (lineStartAt mm p - 1) 0 = NL := by
  intro p
  induction p with
  | zero => left; rfl
  | succ p ih =>
    by_cases h : mm.getD p 0 = NL
    · right
      rw [lineStartAt, if_pos h]
      simpa using h
    · rw [lineStartAt, if_neg h]
      exact ih

/-- No terminator byte lies between the backward scan's stop and its start. -/
theorem lineStartAt_clean (mm : Region) :
    ∀ p i, lineStartAt mm p ≤ i → i < p → mm.getD i 0 ≠ NL := by
  intro p
  induction p with
  | zero => intro i h1 h2; omega
  | succ p ih =>
    intro i h1 h2
    by_cases h : mm.getD p 0 = NL
    · rw [lineStartAt, if_pos h] at h1
      omega
    · rw [lineStartAt, if_neg h] at h1
      rcases Nat.lt_succ_iff_lt_or_eq.mp h2 with h' | h'
      · exact ih i h1 h'
      · subst h'; exact h

/-- Uniqueness of the backward scan: from anywhere inside a line, the scan
stops exactly at the line's start. -/
theorem lineStartAt_eq (mm : Region) :
    ∀ p s, (s = 0 ∨ mm.getD (s - 1) 0 = NL) → s ≤ p →
      (∀ i, s ≤ i → i < p → mm.getD i 0 ≠ NL) → lineStartAt mm p = s := by
  intro p
  induction p with
  | zero =>
    intro s _ hsp _
    have h0 : s = 0 := by omega
    simp [lineStartAt, h0]
  | succ p ih =>
    intro s hs hsp hclean
    by_cases hse : s = p + 1
    · subst hse
      rcases hs with h0 | hnl
      · omega
      · rw [lineStartAt, if_pos (by simpa using hnl)]
    · have hsp' : s ≤ p := by omega
      have hp : mm.getD p 0 ≠ NL := hclean p hsp' (by omega)
      rw [lineStartAt, if_neg hp]
      exact ih s hs hsp' (fun i h1 h2 => hclean i h1 (by omega))

/-- The forward scan never moves backward. -/
theorem lineEndScan_ge : ∀ (l : List Nat) (p : Nat), p ≤ lineEndScan l p := by
  intro l
  induction l with
  | nil => intro p; simp [lineEndScan]
  | cons b t ih =>
    intro p
    simp only [lineEndScan]
    split
    · exact le_refl _
    · exact le_trans (Nat.le_succ p) (ih (p + 1))

/-- The forward scan moves at most to the end of the scanned suffix. -/
theorem lineEndScan_le : ∀ (l : List Nat) (p : Nat), lineEndScan l p ≤ p + l.length := by
  intro l
  induction l with
  | nil => intro p; simp [lineEndScan]
  | cons b t ih =>
    intro p
    simp only [lineEndScan, List.length_cons]
    split
    · omega
    · have := ih (p + 1); omega

/-- The forward scan never moves backward. -/
theorem lineEndAt_ge (mm : Region) (p : Nat) : p ≤ lineEndAt mm p :=
  lineEndScan_ge (mm.drop p) p

/-- The forward scan stops at or before the end of the region. -/
theorem lineEndAt_le (mm : Region) (p : Nat) (h : p ≤ mm.length) :
    lineEndAt mm p ≤ mm.length := by
  have := lineEndScan_le (mm.drop p) p
  rw [List.length_drop] at this
  unfold lineEndAt
  omega

/-- One step of the forward scan on a non-terminator byte. -/
theorem lineEndAt_step (mm : Region) (p : Nat) (hp : p < mm.length)
    (hnl : mm.getD p 0 ≠ NL) : lineEndAt mm p = lineEndAt mm (p + 1) := by
  unfold lineEndAt
  rw [drop_head mm p hp, lineEndScan, if_neg hnl]

/-- The forward scan stops immediately on a terminator byte. -/
theorem lineEndAt_here (mm : Region) (p : Nat) (hp : p < mm.length)
    (hnl : mm.getD p 0 = NL) : lineEndAt mm p = p := by
  unfold lineEndAt
  rw [drop_head mm p hp, lineEndScan, if_pos hnl]

/-- Past the end of the region the forward scan does not move. -/
theorem lineEndAt_past (mm : Region) (p : Nat) (hp : mm.length ≤ p) :
    lineEndAt mm p = p := by
  unfold lineEndAt
  rw [List.drop_eq_nil_of_le hp]
  rfl

/-- The forward scan stops at end-of-region or on a terminator byte. -/
theorem lineEndAt_eof_or_newline (mm : Region) (p : Nat) (hple : p ≤ mm.length) :
    lineEndAt mm p = mm.length ∨ mm.getD (lineEndAt mm p) 0 = NL := by
  have main : ∀ n q, mm.length - q ≤ n → q ≤ mm.length →
      lineEndAt mm q = mm.length ∨ mm.getD (lineEndAt mm q) 0 = NL := by
    intro n
    induction n with
    | zero =>
      intro q h1 h2
      left
      have hq : q = mm.length := by omega
      rw [lineEndAt_past mm q (by omega), hq]
    | succ n ih =>
      intro q h1 h2
      by_cases hq : q < mm.length
      · by_cases hnl : mm.getD q 0 = NL
        · right
          rw [lineEndAt_here mm q hq hnl]
          exact hnl
        · rw [lineEndAt_step mm q hq hnl]
          exact ih (q + 1) (by omega) (by omega)
      · left
        have hq' : q = mm.length := by omega
        rw [lineEndAt_past mm q (by omega), hq']
  exact main mm.length p (by omega) hple

/-- No terminator byte lies strictly inside the forward scan's range. -/
theorem lineEndAt_no_newline (mm : Region) (p : Nat) :
    ∀ i, p ≤ i → i < lineEndAt mm p → mm.getD i 0 ≠ NL := by
  have main : ∀ n q, mm.length - q ≤ n →
      ∀ i, q ≤ i → i < lineEndAt mm q → mm.getD i 0 ≠ NL := by
    intro n
    induction n with
    | zero =>
      intro q h1 i h2 h3
      rw [lineEndAt_past mm q (by omega)] at h3
      omega
    | succ n ih =>
      intro q h1 i h2 h3
      by_cases hq : q < mm.length
      · by_cases hnl : mm.getD q 0 = NL
        · rw [lineEndAt_here mm q hq hnl] at h3
          omega
        · rw [lineEndAt_step mm q hq hnl] at h3
          rcases Nat.eq_or_lt_of_le h2 with h' | h'
          · subst h'; exact hnl
          · exact ih (q + 1) (by omega) i h' h3
      · rw [lineEndAt_past mm q (by omega)] at h3
        omega
  exact main mm.length p (by omega)

/-- Uniqueness of the forward scan: from a line's start, with no interior
terminator and the line's end at a terminator or end-of-region, the scan
stops exactly at the line's end. -/
theorem lineEndAt_eq_of (mm : Region) (p e : Nat) (hpe : p ≤ e) (hel : e ≤ mm.length)
    (he : e = mm.length ∨ mm.getD e 0 = NL)
    (hclean : ∀ i, p ≤ i → i < e → mm.getD i 0 ≠ NL) : lineEndAt mm p = e := by
  have main : ∀ n q, e - q ≤ n → q ≤ e →
      (∀ i, q ≤ i → i < e → mm.getD i 0 ≠ NL) → lineEndAt mm q = e := by
    intro n
    induction n with
    | zero =>
      intro q h1 h2 _
      have hq : q = e := by omega
      subst hq
      rcases he with h' | h'
      · rw [lineEndAt_past mm q (by omega), h']
      · have hlt : q < mm.length := by
          by_contra hcon
          rw [List.getD_eq_default mm 0 (by omega)] at h'
          exact absurd h' (by simp [NL])
        exact lineEndAt_here mm q hlt h'
    | succ n ih =>
      intro q h1 h2 hcl
      rcases Nat.eq_or_lt_of_le h2 with hq | hq
      · subst hq
        rcases he with h' | h'
        · rw [lineEndAt_past mm q (by omega), h']
        · have hlt : q < mm.length := by
            by_contra hcon
            rw [List.getD_eq_default mm 0 (by omega)] at h'
            exact absurd h' (by simp [NL])
          exact lineEndAt_here mm q hlt h'
      · have hnl : mm.getD q 0 ≠ NL := hcl q (le_refl q) hq
        rw [lineEndAt_step mm q (by omega) hnl]
        exact ih (q + 1) (by omega) (by omega) (fun i hi1 hi2 => hcl i (by omega) hi2)
  exact main e p (by omega) hpe hclean

/-! ### Helper lemmas about slices, lines and the extraction loop -/

/-- Length of the Python slice `mm[s:e]`. -/
theorem sliceBytes_length (mm : Region) (s e : Nat) :
    (sliceBytes mm s e).length = min (e - s) (mm.length - s) := by
  simp [sliceBytes]

/-- Every byte of the slice `mm[s:s+n]` is a byte of `mm` at a known offset. -/
theorem mem_drop_take (mm : Region) :
    ∀ n s b, b ∈ (mm.drop s).take n →
      ∃ i, s ≤ i ∧ i < s + n ∧ i < mm.length ∧ mm.getD i 0 = b := by
  intro n
  induction n with
  | zero => intro s b h; simp at h
  | succ n ih =>
    intro s b h
    by_cases hs : s < mm.length
    · rw [drop_head mm s hs, List.take_succ_cons] at h
      rcases List.mem_cons.mp h with h | h
      · exact ⟨s, le_refl s, by omega, hs, h.symm⟩
      · obtain ⟨i, h1, h2, h3, h4⟩ := ih (s + 1) b h
        exact ⟨i, by omega, by omega, h3, h4⟩
    · rw [List.drop_eq_nil_of_le (by omega)] at h
      simp at h

/-- Unfolding of `_get_line_at_position`. -/
theorem get_line_eq (mm : Region) (p : Nat) :
    get_line_at_position mm p =
      (if validUtf8 (sliceBytes mm (lineStartAt mm p) (lineEndAt mm (lineStartAt mm p))) then
        Except.ok (sliceBytes mm (lineStartAt mm p) (lineEndAt mm (lineStartAt mm p)))
      else Except.error PyErr.unicodeDecodeError) := rfl

/-- `_get_line_at_position` probed exactly at a line start: the backward scan
stays put, so the resolved line starts at the probe. -/
theorem get_line_at_start (mm : Region) (p : Nat)
    (hs : p = 0 ∨ mm.getD (p - 1) 0 = NL) :
    get_line_at_position mm p =
      (if validUtf8 (sliceBytes mm p (lineEndAt mm p)) then
        Except.ok (sliceBytes mm p (lineEndAt mm p))
      else Except.error PyErr.unicodeDecodeError) := by
  have h := lineStartAt_eq mm p p hs (le_refl p) (fun i h1 h2 => absurd h2 (by omega))
  rw [get_line_eq, h]

/-- At or past end-of-region the extraction loop stops at once, for any fuel. -/
theorem extractLoop_stop (mm target_date : List Nat) (p : Nat) (h : mm.length ≤ p) :
    ∀ fuel, extractLoop mm target_date fuel p = ([], none) := by
  intro fuel
  cases fuel with
  | zero => rfl
  | succ fuel => rw [extractLoop, if_neg (by omega)]

/-- At or past end-of-region the line decomposition is empty, for any fuel. -/
theorem lineContentsLoop_stop (mm : Region) (p : Nat) (h : mm.length ≤ p) :
    ∀ fuel, lineContentsLoop mm fuel p = [] := by
  intro fuel
  cases fuel with
  | zero => rfl
  | succ fuel => rw [lineContentsLoop, if_neg (by omega)]

/-- Unfolding of the extraction loop below end-of-region. -/
theorem extractLoop_succ_pos (mm target_date : List Nat) (fuel p : Nat) (hp : p < mm.length) :
    extractLoop mm target_date (fuel + 1) p =
      match get_line_at_position mm p with
      | Except.error e => ([], some e)
      | Except.ok line =>
        if target_date.isPrefixOf line then
          (line :: (extractLoop mm target_date fuel (p + line.length + 1)).1,
            (extractLoop mm target_date fuel (p + line.length + 1)).2)
        else ([], none) := by
  rw [extractLoop, if_pos hp]

/-- The extraction loop stops with the exception raised by a failing
`_get_line_at_position` at the current offset. -/
theorem extractLoop_err (mm target_date : List Nat) (fuel p : Nat) (e : PyErr)
    (hp : p < mm.length) (hline : get_line_at_position mm p = Except.error e) :
    extractLoop mm target_date (fuel + 1) p = ([], some e) := by
  rw [extractLoop_succ_pos mm target_date fuel p hp, hline]

/-- The extraction loop writes a matching line and continues after it. -/
theorem extractLoop_ok_pos (mm target_date : List Nat) (fuel p : Nat) (c : List Nat)
    (hp : p < mm.length) (hline : get_line_at_position mm p = Except.ok c)
    (hpre : target_date.isPrefixOf c = true) :
    extractLoop mm target_date (fuel + 1) p =
      (c :: (extractLoop mm target_date fuel (p + c.length + 1)).1,
        (extractLoop mm target_date fuel (p + c.length + 1)).2) := by
  rw [extractLoop_succ_pos mm target_date fuel p hp, hline]
  simp [hpre]

/-- The extraction loop stops cleanly at the first non-matching line. -/
theorem extractLoop_ok_neg (mm target_date : List Nat) (fuel p : Nat) (c : List Nat)
    (hp : p < mm.length) (hline : get_line_at_position mm p = Except.ok c)
    (hpre : target_date.isPrefixOf c = false) :
    extractLoop mm target_date (fuel + 1) p = ([], none) := by
  rw [extractLoop_succ_pos mm target_date fuel p hp, hline]
  simp [hpre]

/-- Unfolding of the line decomposition below end-of-region. -/
theorem lineContentsLoop_succ_pos (mm : Region) (fuel p : Nat) (hp : p < mm.length) :
    lineContentsLoop mm (fuel + 1) p =
      sliceBytes mm p (lineEndAt mm p) ::
        lineContentsLoop mm fuel (p + (sliceBytes mm p (lineEndAt mm p)).length + 1) := by
  rw [lineContentsLoop, if_pos hp]

/-- The extraction loop's result does not depend on the fuel, as long as the
fuel exceeds the number of bytes left. -/
theorem extractLoop_fuel (mm target_date : List Nat) :
    ∀ f g p, mm.length < p + f → mm.length < p + g →
      extractLoop mm target_date f p = extractLoop mm target_date g p := by
  intro f
  induction f with
  | zero =>
    intro g p h1 h2
    rw [extractLoop_stop mm target_date p (by omega) 0,
      extractLoop_stop mm target_date p (by omega) g]
  | succ f ih =>
    intro g p h1 h2
    cases g with
    | zero =>
      rw [extractLoop_stop mm target_date p (by omega) (f + 1),
        extractLoop_stop mm target_date p (by omega) 0]
    | succ g =>
      by_cases hp : p < mm.length
      · rw [extractLoop_succ_pos mm target_date f p hp,
          extractLoop_succ_pos mm target_date g p hp]
        cases hline : get_line_at_position mm p with
        | error e => rfl
        | ok line =>
          by_cases hpre : target_date.isPrefixOf line = true
          · simp only [hpre, if_pos]
            rw [ih g (p + line.length + 1) (by omega) (by omega)]
          · simp only [Bool.not_eq_true] at hpre
            simp [hpre]
      · rw [extractLoop_stop mm target_date p (by omega) (f + 1),
          extractLoop_stop mm target_date p (by omega) (g + 1)]

/-- The head of a non-empty list is always among its scanned lines. -/
theorem scannedOf_head (c : List Nat) (ls : List (List Nat)) (target_date : List Nat) :
    c ∈ scannedOf (c :: ls) target_date := by
  unfold scannedOf
  by_cases h : target_date.isPrefixOf c = true
  · rw [List.takeWhile_cons_of_pos h]
    exact List.mem_append_left _ (List.mem_cons_self _ _)
  · rw [List.dropWhile_cons_of_neg (by simpa using h)]
    exact List.mem_append_right _ (by simp)

/-- Scanned lines of a list headed by a matching line. -/
theorem scannedOf_cons_of_pos (c : List Nat) (ls : List (List Nat)) (target_date : List Nat)
    (h : target_date.isPrefixOf c = true) :
    scannedOf (c :: ls) target_date = c :: scannedOf ls target_date := by
  unfold scannedOf
  rw [List.takeWhile_cons_of_pos h, List.dropWhile_cons_of_pos h]
  rfl

/-- `isPrefixOf` over bytes, characterised by `take`: this is how
`line.startswith(target_date)` and `line[:10] == target_date` agree for a
length-10 target. -/
theorem isPrefixOf_iff_take : ∀ (t c : List Nat), t.isPrefixOf c = true ↔ c.take t.length = t := by
  intro t
  induction t with
  | nil => intro c; simp [List.isPrefixOf]
  | cons a t ih =>
    intro c
    cases c with
    | nil => simp [List.isPrefixOf]
    | cons b c =>
      simp only [List.isPrefixOf, List.length_cons, List.take_succ_cons, Bool.and_eq_true,
        beq_iff_eq, List.cons.injEq]
      rw [ih c]
      constructor
      · rintro ⟨h1, h2⟩; exact ⟨h1.symm, h2⟩
      · rintro ⟨h1, h2⟩; exact ⟨h1.symm, h2⟩

/-- Boolean form of `isPrefixOf_iff_take`. -/
theorem isPrefixOf_eq_decide (t c : List Nat) :
    t.isPrefixOf c = decide (c.take t.length = t) := by
  rw [Bool.eq_iff_iff, isPrefixOf_iff_take, decide_eq_true_iff]

/-- `takeWhile` only depends on the pointwise behaviour of its predicate. -/
theorem takeWhile_ext {α : Type} (p q : α → Bool) (h : ∀ a, p a = q a) :
    ∀ l : List α, l.takeWhile p = l.takeWhile q := by
  intro l
  induction l with
  | nil => rfl
  | cons a l ih => rw [List.takeWhile_cons, List.takeWhile_cons, h a, ih]

/-- Agreement of the forward-extraction loop with the specification-side line
decomposition: started at a line-start offset, with every scanned line
decodable, the loop yields exactly the leading run of matching lines and
stops without error. -/
theorem extractLoop_agrees (mm target_date : List Nat) :
    ∀ fuel pos, (pos = 0 ∨ mm.getD (pos - 1) 0 = NL) →
      (∀ c ∈ scannedOf (lineContentsLoop mm fuel pos) target_date, validUtf8 c = true) →
      extractLoop mm target_date fuel pos =
        ((lineContentsLoop mm fuel pos).takeWhile (fun c => target_date.isPrefixOf c), none) := by
  intro fuel
  induction fuel with
  | zero => intro pos _ _; rfl
  | succ fuel ih =>
    intro pos hstart hvalid
    by_cases hp : pos < mm.length
    · have hcl := lineContentsLoop_succ_pos mm fuel pos hp
      set c := sliceBytes mm pos (lineEndAt mm pos) with hc
      have hcv : validUtf8 c = true := by
        apply hvalid
        rw [hcl]
        exact scannedOf_head c _ target_date
      have hline : get_line_at_position mm pos = Except.ok c := by
        rw [get_line_at_start mm pos hstart, if_pos hcv]
      have hge := lineEndAt_ge mm pos
      have hle := lineEndAt_le mm pos (by omega)
      have hlen : c.length = lineEndAt mm pos - pos := by
        rw [hc, sliceBytes_length]; omega
      by_cases hpre : target_date.isPrefixOf c = true
      · rcases lineEndAt_eof_or_newline mm pos (by omega) with heof | hnl10
        · -- the line runs to end-of-region: the loop and decomposition both end
          rw [extractLoop_ok_pos mm target_date fuel pos c hp hline hpre]
          rw [hcl, List.takeWhile_cons_of_pos hpre]
          rw [extractLoop_stop mm target_date _ (by omega) fuel]
          rw [lineContentsLoop_stop mm _ (by omega) fuel]
          rfl
        · -- the line ends at a terminator: the next offset is a line start
          have hstart' : pos + c.length + 1 = 0 ∨ mm.getD (pos + c.length + 1 - 1) 0 = NL := by
            right
            have h1 : pos + c.length + 1 - 1 = lineEndAt mm pos := by omega
            rw [h1]; exact hnl10
          have hvalid' : ∀ x ∈ scannedOf (lineContentsLoop mm fuel (pos + c.length + 1)) target_date,
              validUtf8 x = true := by
            intro x hx
            apply hvalid
            rw [hcl, scannedOf_cons_of_pos c _ target_date hpre]
            exact List.mem_cons_of_mem _ hx
          rw [extractLoop_ok_pos mm target_date fuel pos c hp hline hpre]
          rw [ih (pos + c.length + 1) hstart' hvalid']
          rw [hcl, List.takeWhile_cons_of_pos hpre]
      · have hpre' : target_date.isPrefixOf c = false := by
          cases hb : target_date.isPrefixOf c with
          | true => exact absurd hb hpre
          | false => rfl
        rw [extractLoop_ok_neg mm target_date fuel pos c hp hline hpre']
        rw [hcl, List.takeWhile_cons_of_neg (by simp [hpre'])]
    · rw [extractLoop_stop mm target_date pos (by omega) (fuel + 1)]
      rw [lineContentsLoop_stop mm pos (by omega) (fuel + 1)]
      rfl

/-! ### Claim theorems -/

/-- Claim C1 (refuted by the code): for a sorted, non-empty region containing
a line whose 10-byte date key equals the target, `_binary_search_date` is
claimed to return the offset of the first matching line.  On `r1`, whose
first line (offset 0) matches `date0102`, the function instead raises
`TypeError` at `left, right = len(mm)` (src line 82) before its loop can
run, so it returns no offset at all. -/
theorem binary_search_raises_despite_match :
    get_line_at_position r1 0 = Except.ok (date0102 ++ [32, 97]) ∧
    (date0102 ++ [32, 97]).take 10 = date0102 ∧
    binary_search_date r1 date0102 = Except.error PyErr.typeError :=
  ⟨rfl, rfl, rfl⟩

/-- Claim C2 (refuted by the code): for a sorted, non-empty region with no
matching line, the search is claimed to return NotFound (`-1`) without
crashing.  On `r2` with the absent date `date0305`, `_binary_search_date`
raises `TypeError` (src line 82); `extract_logs` consequently takes its
`except` branch and prints an error instead of the "No logs found" path. -/
theorem binary_search_raises_instead_of_notfound :
    binary_search_date r2 date0305 = Except.error PyErr.typeError ∧
    extract_logs_core r2 date0305 = RunResult.fatalError PyErr.typeError ∧
    extract_logs_core r2 date0305 ≠ RunResult.noLogs :=
  ⟨rfl, rfl, by decide⟩

/-- Claim C3 (refuted by the code): a decode failure at a binary-search probe
is claimed to be swallowed (`right = mid`) with the search continuing to
completion.  On `r3`, whose line at offset 13 is undecodable, the search
loop never runs at all: `_binary_search_date` raises `TypeError` at
src line 82.  (Moreover, src line 89 calls `_get_line_at_position` *outside*
the `try:` of line 90, so even with line 82 repaired a probe's
`UnicodeDecodeError` would propagate out of the search instead of being
treated as "greater than target"; the `except:` at line 100 guards only the
slicing and comparisons of lines 91–99, which cannot raise.) -/
theorem binary_search_raises_on_corrupt_region :
    get_line_at_position r3 13 = Except.error PyErr.unicodeDecodeError ∧
    binary_search_date r3 date0105 = Except.error PyErr.typeError :=
  ⟨rfl, rfl⟩

/-- Claim C4, counterexample to the universal claim: on region `r4` the
start offset 0 is a line start whose date key equals the target, yet forward
extraction does not stop without error — the line after the matching run is
undecodable, so the run ends in a `UnicodeDecodeError` rather than a clean
stop. -/
theorem extract_forward_decode_failure_cex :
    (sliceBytes r4 0 (lineEndAt r4 0)).take 10 = date0102 ∧
    (0 = 0 ∨ r4.getD (0 - 1) 0 = NL) ∧
    (extract_forward r4 date0102 0).2 ≠ none :=
  ⟨rfl, Or.inl rfl, by decide⟩

/-- Claim C4 (amended with the decode proviso of §7 of the specification):
for every region, every 10-byte target date, and every line-start offset
`pos` whose line's date key equals the target, provided every line the loop
scans (the matching run and the first differing line, if any) decodes
successfully, forward extraction yields exactly the contiguous run of lines
whose date key equals the target — `takeWhile` of the region's line
decomposition from `pos` — in file order, and stops without error at the
first differing line or at end-of-region. -/
theorem extract_forward_yields_matching_run (mm target_date : List Nat) (pos : Nat)
    (htarget : target_date.length = 10)
    (hstart : pos = 0 ∨ mm.getD (pos - 1) 0 = NL)
    (hmatch : (sliceBytes mm pos (lineEndAt mm pos)).take 10 = target_date)
    (hvalid : ∀ c ∈ scannedOf (lineContentsFrom mm pos) target_date, validUtf8 c = true) :
    extract_forward mm target_date pos =
      ((lineContentsFrom mm pos).takeWhile (fun c => decide (c.take 10 = target_date)), none) := by
  have h := extractLoop_agrees mm target_date (mm.length + 1) pos hstart hvalid
  unfold extract_forward lineContentsFrom
  rw [h]
  have hext := takeWhile_ext (fun c => target_date.isPrefixOf c)
    (fun c => decide (c.take 10 = target_date))
    (fun c => by
      show target_date.isPrefixOf c = decide (c.take 10 = target_date)
      rw [isPrefixOf_eq_decide, htarget])
    (lineContentsLoop mm (mm.length + 1) pos)
  rw [hext]

/-- Witness for C4's amended theorem: on the clean sorted region `r5`, from
the line start 13 (the first `2024-01-02` line), extraction yields exactly
the two `2024-01-02` lines and no error. -/
theorem extract_forward_yields_matching_run_witness :
    date0102.length = 10 ∧
    (13 = 0 ∨ r5.getD (13 - 1) 0 = NL) ∧
    (sliceBytes r5 13 (lineEndAt r5 13)).take 10 = date0102 ∧
    (∀ c ∈ scannedOf (lineContentsFrom r5 13) date0102, validUtf8 c = true) ∧
    extract_forward r5 date0102 13 =
      ((lineContentsFrom r5 13).takeWhile (fun c => decide (c.take 10 = date0102)), none) :=
  ⟨by decide, by decide, by decide, by decide,
    extract_forward_yields_matching_run r5 date0102 13 (by decide) (by decide) (by decide)
      (by decide)⟩

/-- Claim C5: a decode failure on a line reached during forward extraction
fails the run at that line — the loop returns the raised exception, yielding
nothing from that point (no silent skip) — and every matching line written
before the failure stays in the output: each successfully processed matching
line is a permanent `cons` onto whatever the rest of the run produces,
whether that rest ends in an error or not (no rollback). -/
theorem extract_forward_error_and_no_rollback (mm target_date : List Nat) (pos : Nat) :
    (∀ e, pos < mm.length → get_line_at_position mm pos = Except.error e →
      extract_forward mm target_date pos = ([], some e)) ∧
    (∀ c, pos < mm.length → get_line_at_position mm pos = Except.ok c →
      target_date.isPrefixOf c = true →
      extract_forward mm target_date pos =
        (c :: (extract_forward mm target_date (pos + c.length + 1)).1,
          (extract_forward mm target_date (pos + c.length + 1)).2)) := by
  constructor
  · intro e hp hline
    unfold extract_forward
    exact extractLoop_err mm target_date mm.length pos e hp hline
  · intro c hp hline hpre
    unfold extract_forward
    rw [extractLoop_ok_pos mm target_date mm.length pos c hp hline hpre]
    rw [extractLoop_fuel mm target_date mm.length (mm.length + 1) (pos + c.length + 1)
      (by omega) (by omega)]

/-- Witness for C5: on region `r6` (`"2024-01-02 a\n<0xFF>\n2024-01-02 c\n"`),
the matching first line written at offset 0 stays in the output, and the
undecodable line at offset 13 fails the run with `UnicodeDecodeError`. -/
theorem extract_forward_error_and_no_rollback_witness :
    0 < r6.length ∧
    get_line_at_position r6 0 = Except.ok (date0102 ++ [32, 97]) ∧
    date0102.isPrefixOf (date0102 ++ [32, 97]) = true ∧
    extract_forward r6 date0102 0 =
      ((date0102 ++ [32, 97]) :: (extract_forward r6 date0102 13).1,
        (extract_forward r6 date0102 13).2) ∧
    13 < r6.length ∧
    get_line_at_position r6 13 = Except.error PyErr.unicodeDecodeError ∧
    extract_forward r6 date0102 13 = ([], some PyErr.unicodeDecodeError) :=
  ⟨by decide, rfl, by decide,
    (extract_forward_error_and_no_rollback r6 date0102 0).2 (date0102 ++ [32, 97])
      (by decide) rfl (by decide),
    by decide, rfl,
    (extract_forward_error_and_no_rollback r6 date0102 13).1 PyErr.unicodeDecodeError
      (by decide) rfl⟩

/-- Claim C6: for any two probe offsets lying within the same line — between
the same pair of surrounding terminators (the span `[s, e]` with `s` a line
start, `e` a terminator offset or the region length, and no interior
terminator) — `_get_line_at_position` resolves the same `(start, end)` span
and hence returns the same content. -/
theorem get_line_probe_independent (mm : Region) (s e p q : Nat)
    (hs : s = 0 ∨ mm.getD (s - 1) 0 = NL)
    (helen : e ≤ mm.length)
    (he : e = mm.length ∨ mm.getD e 0 = NL)
    (hclean : ∀ i, s ≤ i → i < e → mm.getD i 0 ≠ NL)
    (hsp : s ≤ p) (hpe : p ≤ e) (hsq : s ≤ q) (hqe : q ≤ e) :
    lineStartAt mm p = lineStartAt mm q ∧
    lineEndAt mm (lineStartAt mm p) = lineEndAt mm (lineStartAt mm q) ∧
    get_line_at_position mm p = get_line_at_position mm q := by
  have hp' : lineStartAt mm p = s :=
    lineStartAt_eq mm p s hs hsp (fun i h1 h2 => hclean i h1 (by omega))
  have hq' : lineStartAt mm q = s :=
    lineStartAt_eq mm q s hs hsq (fun i h1 h2 => hclean i h1 (by omega))
  refine ⟨by rw [hp', hq'], by rw [hp', hq'], ?_⟩
  rw [get_line_eq, get_line_eq, hp', hq']

/-- Witness for C6: on `r7` (`"ab\ncd\nef"`), the probes 3 and 4 both lie in
the middle line `"cd"` (span `[3, 5]`) and resolve identically. -/
theorem get_line_probe_independent_witness :
    ((3 : Nat) = 0 ∨ r7.getD (3 - 1) 0 = NL) ∧
    (5 : Nat) ≤ r7.length ∧
    ((5 : Nat) = r7.length ∨ r7.getD 5 0 = NL) ∧
    (∀ i, 3 ≤ i → i < 5 → r7.getD i 0 ≠ NL) ∧
    lineStartAt r7 3 = lineStartAt r7 4 ∧
    lineEndAt r7 (lineStartAt r7 3) = lineEndAt r7 (lineStartAt r7 4) ∧
    get_line_at_position r7 3 = get_line_at_position r7 4 := by
  have h := get_line_probe_independent r7 3 5 3 4 (by decide) (by decide) (by decide)
    (by decide) (by decide) (by decide) (by decide) (by decide)
  exact ⟨by decide, by decide, by decide, by decide, h.1, h.2.1, h.2.2⟩

/-- Claim C7: a probe position that lands exactly on a terminator byte
resolves the line ending at that terminator — the backward scan stops at
that line's start (offset 0 or just after the previous terminator, with no
terminator in between), and the forward scan stops exactly at the probed
terminator — i.e. the line before it, not the line after it. -/
theorem get_line_terminator_resolves_preceding_line (mm : Region) (t : Nat)
    (ht : t < mm.length) (h10 : mm.getD t 0 = NL) :
    lineStartAt mm t ≤ t ∧
    (lineStartAt mm t = 0 ∨ mm.getD (lineStartAt mm t - 1) 0 = NL) ∧
    (∀ i, lineStartAt mm t ≤ i → i < t → mm.getD i 0 ≠ NL) ∧
    lineEndAt mm (lineStartAt mm t) = t := by
  refine ⟨lineStartAt_le mm t, lineStartAt_start mm t, lineStartAt_clean mm t, ?_⟩
  exact lineEndAt_eq_of mm (lineStartAt mm t) t (lineStartAt_le mm t) (by omega)
    (Or.inr h10) (lineStartAt_clean mm t)

/-- Witness for C7: on `r7`, probing offset 2 (the terminator of `"ab"`)
resolves the line `[0, 2)`, the one ending at that terminator. -/
theorem get_line_terminator_resolves_preceding_line_witness :
    (2 : Nat) < r7.length ∧ r7.getD 2 0 = NL ∧
    lineStartAt r7 2 ≤ 2 ∧
    (lineStartAt r7 2 = 0 ∨ r7.getD (lineStartAt r7 2 - 1) 0 = NL) ∧
    (∀ i, lineStartAt r7 2 ≤ i → i < 2 → r7.getD i 0 ≠ NL) ∧
    lineEndAt r7 (lineStartAt r7 2) = 2 := by
  have h := get_line_terminator_resolves_preceding_line r7 2 (by decide) (by decide)
  exact ⟨by decide, by decide, h.1, h.2.1, h.2.2.1, h.2.2.2⟩

/-- Claim C8: extraction is deterministic and idempotent — the
search-and-extract operation is a pure function of the mapped region and the
target date, so two runs over the same region and date produce byte-identical
output (here: the same output-file bytes, including the case where no output
file is produced at all). -/
theorem extract_logs_core_deterministic (mm mm' : Region) (d d' : List Nat)
    (hm : mm = mm') (hd : d = d') :
    outputBytes (extract_logs_core mm d) = outputBytes (extract_logs_core mm' d') := by
  subst hm
  subst hd
  rfl

/-- Witness for C8: two runs on `r1` with date `date0102` agree. -/
theorem extract_logs_core_deterministic_witness :
    r1 = r1 ∧ date0102 = date0102 ∧
    outputBytes (extract_logs_core r1 date0102) = outputBytes (extract_logs_core r1 date0102) :=
  ⟨rfl, rfl, extract_logs_core_deterministic r1 r1 date0102 date0102 rfl rfl⟩

/-- Claim C9: `_get_line_at_position` is total on any region and any position
in `[0, len]` — both scans are terminating total functions (they are
structurally recursive here), the resolved span satisfies
`0 ≤ start ≤ end ≤ len`, and the returned content contains no terminator
byte. -/
theorem get_line_span_bounds (mm : Region) (pos : Nat) (hpos : pos ≤ mm.length) :
    lineStartAt mm pos ≤ pos ∧
    lineStartAt mm pos ≤ lineEndAt mm (lineStartAt mm pos) ∧
    lineEndAt mm (lineStartAt mm pos) ≤ mm.length ∧
    ∀ c, get_line_at_position mm pos = Except.ok c → NL ∉ c := by
  have h1 := lineStartAt_le mm pos
  have h2 := lineEndAt_ge mm (lineStartAt mm pos)
  have h3 := lineEndAt_le mm (lineStartAt mm pos) (by omega)
  refine ⟨h1, h2, h3, ?_⟩
  intro c hc
  rw [get_line_eq] at hc
  by_cases hv : validUtf8 (sliceBytes mm (lineStartAt mm pos)
      (lineEndAt mm (lineStartAt mm pos))) = true
  · rw [if_pos hv] at hc
    injection hc with hc
    intro hmem
    rw [← hc] at hmem
    obtain ⟨i, hi1, hi2, hi3, hi4⟩ := mem_drop_take mm
      (lineEndAt mm (lineStartAt mm pos) - lineStartAt mm pos) (lineStartAt mm pos) NL hmem
    exact lineEndAt_no_newline mm (lineStartAt mm pos) i hi1 (by omega) hi4
  · rw [if_neg hv] at hc
    cases hc

/-- Witness for C9: on `r7` at position 4 the span is `[3, 5]` within bounds
and the content `"cd"` has no terminator. -/
theorem get_line_span_bounds_witness :
    (4 : Nat) ≤ r7.length ∧
    lineStartAt r7 4 ≤ 4 ∧
    lineStartAt r7 4 ≤ lineEndAt r7 (lineStartAt r7 4) ∧
    lineEndAt r7 (lineStartAt r7 4) ≤ r7.length ∧
    ∀ c, get_line_at_position r7 4 = Except.ok c → NL ∉ c := by
  have h := get_line_span_bounds r7 4 (by decide)
  exact ⟨by decide, h.1, h.2.1, h.2.2.1, h.2.2.2⟩

/-- Claim C10: the forward-extraction loop preserves line-start alignment —
if the current position is the start offset of a line (and the line
decodes, so that it is yielded), then the loop's advance
`position += len(line) + 1` lands exactly on `end + 1`, the byte after the
line's terminator, which is the start offset of the next line whenever it is
still inside the region, and lies at or past `len(region)` when the file
ends.  (The alignment argument needs the line-start hypothesis: from an
interior probe the resolved line starts before the probe, and
`position + len(line) + 1` would overshoot `end + 1`.) -/
theorem advance_lands_on_line_start (mm : Region) (pos : Nat) (c : List Nat)
    (hpos : pos ≤ mm.length)
    (hstart : pos = 0 ∨ mm.getD (pos - 1) 0 = NL)
    (hline : get_line_at_position mm pos = Except.ok c) :
    pos + c.length + 1 = lineEndAt mm pos + 1 ∧
    (mm.length < pos + c.length + 1 ∨ mm.getD (pos + c.length) 0 = NL) := by
  rw [get_line_at_start mm pos hstart] at hline
  by_cases hv : validUtf8 (sliceBytes mm pos (lineEndAt mm pos)) = true
  · rw [if_pos hv] at hline
    injection hline with hline
    have h1 := lineEndAt_ge mm pos
    have h2 := lineEndAt_le mm pos hpos
    have hlen : c.length = lineEndAt mm pos - pos := by
      rw [← hline, sliceBytes_length]
      omega
    refine ⟨by omega, ?_⟩
    rcases lineEndAt_eof_or_newline mm pos hpos with he | he
    · left; omega
    · right
      have h3 : pos + c.length = lineEndAt mm pos := by omega
      rw [h3]
      exact he
  · rw [if_neg hv] at hline
    cases hline

/-- Witness for C10: on `r1` from line start 0, the line `"2024-01-02 a"`
(12 bytes) advances to offset 13, the start of the second line. -/
theorem advance_lands_on_line_start_witness :
    (0 : Nat) ≤ r1.length ∧
    ((0 : Nat) = 0 ∨ r1.getD (0 - 1) 0 = NL) ∧
    get_line_at_position r1 0 = Except.ok (date0102 ++ [32, 97]) ∧
    (0 + (date0102 ++ [32, 97]).length + 1 = lineEndAt r1 0 + 1 ∧
      (r1.length < 0 + (date0102 ++ [32, 97]).length + 1 ∨
        r1.getD (0 + (date0102 ++ [32, 97]).length) 0 = NL)) :=
  ⟨by decide, Or.inl rfl, rfl,
    advance_lands_on_line_start r1 0 (date0102 ++ [32, 97]) (by decide) (Or.inl rfl) rfl⟩
